import Mathlib

/-!
Shallow embedding of the concurrent range-download programs of this
repository (`src/APS1/main.go` and `src/APS2/main.go`).

The two programs share their download pipeline: a HEAD probe
(`getFileSize`), a chunk partition (`runDownload` / `main`), one fetcher
goroutine per chunk (`downloadChunk` with `rateLimitedReader` and
`sectionWriter`), and a shared rate limiter (a mutex/lazy-refill token
bucket in APS2, a ticker-fed channel in APS1).

Modelling conventions:
* Go `int64` values are modelled as `Int` (with `Int.tdiv` for Go's
  truncated division; division by zero panics in Go, so the orchestrator
  model returns a `panicked` outcome exactly where the Go expression
  would divide by zero).  `main` rejects `threads <= 0` before the
  pipeline runs (APS2 line 219), so the worker count is a `Nat` with
  positivity assumed in the theorems.
* The file on disk and the served content are `List Nat` byte sequences;
  `os.File.WriteAt` is positional overwrite (`writeAt`).
* The network is abstracted: a HEAD response is `Option HeadResponse`
  (`none` = transport failure; absent headers are `""`, as `Header.Get`
  returns), and a ranged GET for `[s, e]` yields exactly bytes `[s, e]`
  of the served content (`serveRange`).  Per-fetcher failures are a
  `chunkFail` oracle giving, per chunk index, `none` (success) or
  `some m` (the fetcher aborted after writing `m` bytes: request
  construction, transport or write error).
* Concurrent fetchers are serialized in chunk-index order; their write
  ranges are disjoint, so the final file content is order-independent.
-/

namespace Downloader

/-- A HEAD response as the probe sees it.  `Header.Get` yields `""` for an
absent header, so absence of `Accept-Ranges` or `Content-Length` is the
empty string. -/
structure HeadResponse where
  acceptRanges : String
  contentLength : String
deriving DecidableEq

/-- Base-10 digit-string evaluation inside `strconv.ParseInt`: fails on any
non-digit character. -/
def digitsToNat (l : List Char) : Option Nat :=
  l.foldl
    (fun acc c =>
      acc.bind fun a => if c.isDigit then some (a * 10 + (c.toNat - 48)) else none)
    (some 0)

/-- Model of `strconv.ParseInt(s, 10, 64)`: optional sign, at least one digit, all
digits, and the value must fit in a signed 64-bit integer. -/
def parseInt64 (s : String) : Option Int :=
  match s.data with
  | [] => none
  | c :: rest =>
    let ds := if c = '-' ∨ c = '+' then rest else c :: rest
    if ds = [] then none
    else
      match digitsToNat ds with
      | none => none
      | some v =>
        if c = '-' then
          if v ≤ 2 ^ 63 then some (-(v : Int)) else none
        else
          if v ≤ 2 ^ 63 - 1 then some (v : Int) else none

/-- The probe `getFileSize` (APS2 lines 32-54; identical in APS1 lines 18-40): fails on
transport error, on `Accept-Ranges ≠ "bytes"`, on an absent
`Content-Length`, or on an unparsable `Content-Length`; otherwise returns
the parsed length. -/
def getFileSize (resp : Option HeadResponse) : Except String Int :=
  match resp with
  | none => .error "transport"
  | some r =>
    if r.acceptRanges ≠ "bytes" then
      .error "servidor nao suporta downloads parciais (range requests)"
    else if r.contentLength = "" then
      .error "servidor nao retornou Content-Length"
    else
      match parseInt64 r.contentLength with
      | none => .error "invalid Content-Length"
      | some n => .ok n

/-- Whether a probe result is an error. -/
def isErr (e : Except String Int) : Bool :=
  match e with
  | .error _ => true
  | .ok _ => false

/-- The planner's `chunkSize := (fileSize + threads - 1) / threads` (APS2 line 174,
APS1 line 161), on the nonnegative domain. -/
def chunkSize (fileSize threads : Nat) : Nat := (fileSize + threads - 1) / threads

/-- The planner's `chunks := (fileSize + chunkSize - 1) / chunkSize` (APS2 line 175,
APS1 line 162). -/
def chunkCount (fileSize threads : Nat) : Nat :=
  (fileSize + chunkSize fileSize threads - 1) / chunkSize fileSize threads

/-- Chunk `i` of the download loop (APS2 lines 195-200): start `i*chunkSize`,
end `(i+1)*chunkSize - 1` clipped to `fileSize - 1`. -/
def chunkOf (fileSize threads i : Nat) : Nat × Nat :=
  let cs := chunkSize fileSize threads
  (i * cs, if fileSize ≤ (i + 1) * cs - 1 then fileSize - 1 else (i + 1) * cs - 1)

/-- The ordered chunk sequence of one run. -/
def chunkPlan (fileSize threads : Nat) : List (Nat × Nat) :=
  (List.range (chunkCount fileSize threads)).map (chunkOf fileSize threads)

/-- Positional overwrite, the list model of `file.WriteAt(data, off)`. -/
def writeAt (file : List Nat) (off : Nat) (data : List Nat) : List Nat :=
  file.take off ++ data ++ file.drop (off + data.length)

/-- Bytes `[s, e]` (inclusive) of the served content: the body of a ranged
GET `bytes=s-e` against a compliant server. -/
def serveRange (content : List Nat) (s e : Nat) : List Nat :=
  (content.drop s).take (e + 1 - s)

/-- What the fetcher of chunk `c` writes: the whole ranged body on success,
or only its first `m` bytes if the fetcher aborted after `m` bytes
(`downloadChunk` logs the error and returns without retry). -/
def fetchData (content : List Nat) (c : Nat × Nat) (outcome : Option Nat) : List Nat :=
  match outcome with
  | none => serveRange content c.1 c.2
  | some m => (serveRange content c.1 c.2).take m

/-- All fetcher writes applied to the truncated (zero-filled) output file,
chunk by chunk.  Fetchers own disjoint ranges, so serializing them in
index order fixes the same final content as any interleaving. -/
def assembleWith (fileSize : Nat) (content : List Nat) (threads : Nat)
    (chunkFail : Nat → Option Nat) : List Nat :=
  (List.range (chunkCount fileSize threads)).foldl
    (fun file i =>
      writeAt file (chunkOf fileSize threads i).1
        (fetchData content (chunkOf fileSize threads i) (chunkFail i)))
    (List.replicate fileSize 0)

/-- Observable outcome of one `runDownload` invocation, in program order:
probe failure aborts before any file is created (APS2 lines 166-171);
the chunk-count expression divides by zero when `chunkSize = 0`
(line 175), which panics before `os.Create` (line 179); `Truncate`
fails on a negative size (line 186); otherwise the run waits for every
fetcher and reports completion (lines 206-207). -/
inductive RunOutcome where
  | probeFailed
  | panicked
  | truncateFailed
  | completed (file : List Nat)
deriving DecidableEq

/-- The orchestrator `runDownload` (APS2 lines 160-208) with a per-chunk failure oracle.
`tdiv` is Go's truncated `int64` division; the `= 0` test marks exactly
the divisor-zero panic of line 175. -/
def runDownloadWith (resp : Option HeadResponse) (content : List Nat) (threads : Nat)
    (chunkFail : Nat → Option Nat) : RunOutcome :=
  match getFileSize resp with
  | .error _ => .probeFailed
  | .ok fileSize =>
    if (fileSize + (threads : Int) - 1).tdiv (threads : Int) = 0 then .panicked
    else if fileSize < 0 then .truncateFailed
    else .completed (assembleWith fileSize.toNat content threads chunkFail)

/-- A run in which no fetcher fails. -/
def runDownload (resp : Option HeadResponse) (content : List Nat) (threads : Nat) :
    RunOutcome :=
  runDownloadWith resp content threads fun _ => none

/-- Observable events of one `rateLimitedReader.Read` call: a token wait and
the underlying body read. -/
inductive IOEvent where
  | wait (n : Nat)
  | readBody (n : Nat)
deriving DecidableEq

/-- The cap of the read buffer at 16 KiB
(`if len(p) > 16*1024 { p = p[:16*1024] }`, APS2 lines 106-108). -/
def readQuantum (bufLen : Nat) : Nat := if 16 * 1024 < bufLen then 16 * 1024 else bufLen

/-- One `rateLimitedReader.Read` on a buffer of length `bufLen`
(APS2 lines 105-111 = APS1 lines 76-82): cap the buffer, call
`RateLimiter.Wait` on the capped length, then read.  `body k` is the
number of bytes the underlying response-body read returns for a
`k`-byte request; the `io.Reader` contract allows any `body k ≤ k`. -/
def rateLimitedRead (bufLen : Nat) (body : Nat → Nat) : List IOEvent :=
  [.wait (readQuantum bufLen), .readBody (body (readQuantum bufLen))]

/-- Tokens consumed from the limiter over a trace (each `Wait n` consumes
exactly `n` tokens before returning). -/
def tokensConsumed (tr : List IOEvent) : Nat :=
  (tr.map fun ev => match ev with | .wait n => n | .readBody _ => 0).sum

/-- Bytes actually obtained from the response body over a trace. -/
def bytesObtained (tr : List IOEvent) : Nat :=
  (tr.map fun ev => match ev with | .readBody n => n | .wait _ => 0).sum

/-- The positional writes of one fetcher through its `sectionWriter`
(APS2 lines 149-158): `ns` are the sizes of the successive quanta the
copy loop hands to `Write`; each write lands at the current offset and
advances it by the written size. -/
def writeEvents (offset : Nat) : List Nat → List (Nat × Nat)
  | [] => []
  | n :: ns => (offset, n) :: writeEvents (offset + n) ns

/-- The APS2 rate limiter state (lines 57-62).  Time is modelled in whole
seconds; the float64 `elapsed * bytesPerSec` refill of line 76 is
modelled as exact integer arithmetic. -/
structure RateLimiter where
  bytesPerSec : Nat
  tokens : Nat
  lastRefill : Nat
deriving DecidableEq

/-- Constructor `NewRateLimiter` (APS2 lines 64-70): a full bucket stamped `now`. -/
def NewRateLimiter (bytesPerSec now : Nat) : RateLimiter :=
  { bytesPerSec := bytesPerSec, tokens := bytesPerSec, lastRefill := now }

/-- The lazy `refill` (APS2 lines 72-84): add `elapsed * bytesPerSec` tokens, capped
at the capacity, and advance the stamp — only when the increment is
positive. -/
def RateLimiter.refill (rl : RateLimiter) (now : Nat) : RateLimiter :=
  let newTokens := (now - rl.lastRefill) * rl.bytesPerSec
  if 0 < newTokens then
    { rl with tokens := min (rl.tokens + newTokens) rl.bytesPerSec, lastRefill := now }
  else rl

/-- One mutex-protected iteration of `Wait n` (APS2 lines 86-98): refill,
then either consume `n` tokens and return, or release the lock and
sleep (consuming nothing).  The second component is what this
iteration consumed. -/
def RateLimiter.waitStep (rl : RateLimiter) (now n : Nat) : RateLimiter × Nat :=
  let rl2 := rl.refill now
  if n ≤ rl2.tokens then ({ rl2 with tokens := rl2.tokens - n }, n) else (rl2, 0)

/-- A serialized trace of `Wait` iterations from all concurrent fetchers
(the mutex serializes them): each entry is a timestamp and a requested
token count.  Returns the final state and the total tokens consumed. -/
def runTrace : RateLimiter → List (Nat × Nat) → RateLimiter × Nat
  | rl, [] => (rl, 0)
  | rl, (t, n) :: rest =>
    let s := rl.waitStep t n
    let r := runTrace s.1 rest
    (r.1, s.2 + r.2)

/-- Serialized events of the APS1 channel limiter (lines 43-69): a ticker
tick that tops the buffered channel up (non-blocking sends, dropped
when full), or a fetcher pulling up to `n` unit tokens. -/
inductive QueueOp where
  | tick
  | wait (n : Nat)

/-- The APS1 limiter: a channel of capacity `bytesPerSec` holding `queue`
unit tokens. -/
structure ChanLimiter where
  bytesPerSec : Nat
  queue : Nat

/-- One serialized event: a tick injects up to `bytesPerSec` tokens
(capped at the channel capacity `bytesPerSec`); a waiting fetcher pulls
the tokens present, up to its request. -/
def chanStep (s : ChanLimiter) (op : QueueOp) : ChanLimiter × Nat :=
  match op with
  | .tick => ({ s with queue := min (s.queue + s.bytesPerSec) s.bytesPerSec }, 0)
  | .wait n => ({ s with queue := s.queue - min n s.queue }, min n s.queue)

/-- Run a serialized event list; returns the final state and the total
tokens released to callers. -/
def runChanTrace : ChanLimiter → List QueueOp → ChanLimiter × Nat
  | s, [] => (s, 0)
  | s, op :: rest =>
    let x := chanStep s op
    let r := runChanTrace x.1 rest
    (r.1, x.2 + r.2)

/-- Number of ticker ticks in an event list (the 1-second ticker fires at
most `T` times inside a `T`-second window). -/
def countTicks : List QueueOp → Nat
  | [] => 0
  | .tick :: rest => countTicks rest + 1
  | .wait _ :: rest => countTicks rest

/-- Go `path.Base`: `"."` for the empty string, else strip trailing
slashes, take everything after the last slash, `"/"` if nothing is
left. -/
def pathBase (s : String) : String :=
  if s = "" then "."
  else
    let r := s.data.reverse.dropWhile (fun c => c = '/')
    let b := (r.takeWhile (fun c => c ≠ '/')).reverse
    if b = [] then "/" else String.mk b

/-- Backwards scan of Go `path.Ext`: walking from the end, stop empty at a
slash or the start, or return the suffix from the first `'.'` found.
`acc` holds the characters already passed, in forward order. -/
def pathExtAux : List Char → List Char → String
  | _, [] => ""
  | acc, c :: rest =>
    if c = '/' then ""
    else if c = '.' then String.mk (c :: acc)
    else pathExtAux (c :: acc) rest

/-- Go `path.Ext`: the suffix starting at the final dot of the final
slash-separated element, `""` if there is none. -/
def pathExt (s : String) : String := pathExtAux [] s.data.reverse

/-- Go `strings.TrimSuffix`. -/
def trimSuffix (s suffix : String) : String :=
  if suffix.data.isSuffixOf s.data then
    String.mk (s.data.take (s.data.length - suffix.data.length))
  else s

/-- Go `url.Values.Get`: first value for the key, `""` if absent. -/
def queryGet (q : List (String × String)) (key : String) : String :=
  match q.find? (fun p => p.1 == key) with
  | some p => p.2
  | none => ""

/-- A URL in parsed form, as `url.Parse` would decompose the inputs the
programs receive. -/
structure ParsedURL where
  scheme : String
  host : String
  path : String
  query : List (String × String)

/-- The raw string such a URL was parsed from. -/
def ParsedURL.raw (u : ParsedURL) : String :=
  u.scheme ++ "://" ++ u.host ++ u.path ++
    match u.query with
    | [] => ""
    | _ => "?" ++ String.intercalate "&" (u.query.map fun p => p.1 ++ "=" ++ p.2)

/-- Naming via `getFileName` (APS2 lines 17-30): `"output.dat"` if `url.Parse` failed,
else the basename of the parsed path, with
`TrimSuffix(name, Ext(name)) + "." + format` when the `format` query
parameter is nonempty. -/
def getFileName (parsed : Option ParsedURL) : String :=
  match parsed with
  | none => "output.dat"
  | some u =>
    let fileName := pathBase u.path
    let ext := queryGet u.query "format"
    if ext ≠ "" then trimSuffix fileName (pathExt fileName) ++ "." ++ ext
    else fileName

/-- APS1 line 165: `os.Create(path.Base(url))` — `path.Base` applied to the
raw URL string, not to its path component. -/
def aps1FileName (rawURL : String) : String := pathBase rawURL

/-- The characters strictly before the last `'.'` of `l`, or all of `l`
when there is no dot. -/
def beforeLastDot (l : List Char) : List Char :=
  match l.reverse.dropWhile (fun c => c ≠ '.') with
  | [] => l
  | _ :: rest => rest.reverse

/-- The spec's wording of the output name (§6): the basename of the URL's
path component; when the URL carries a `format` query parameter, the
basename's extension is replaced with that value. -/
def specFileName (u : ParsedURL) : String :=
  let base := pathBase u.path
  let ext := queryGet u.query "format"
  if ext = "" then base
  else String.mk (beforeLastDot base.data) ++ "." ++ ext

/-- A URL carrying a `format` query parameter, for concrete checks. -/
def demoURL : ParsedURL :=
  { scheme := "http"
    host := "example.com"
    path := "/file.txt"
    query := [("format", "pdf")] }

/-! ## Arithmetic facts about the chunk partition -/

lemma chunkSize_pos (n t : Nat) (hn : 0 < n) (ht : 0 < t) : 0 < chunkSize n t := by
  have h := (Nat.le_div_iff_mul_le ht).2 (show 1 * t ≤ n + t - 1 by omega)
  simpa [chunkSize] using h

lemma chunkCount_mul_ge (n t : Nat) (hn : 0 < n) (ht : 0 < t) :
    n ≤ chunkCount n t * chunkSize n t := by
  have hcs := chunkSize_pos n t hn ht
  unfold chunkCount
  have hdm := Nat.div_add_mod (n + chunkSize n t - 1) (chunkSize n t)
  have hlt := Nat.mod_lt (n + chunkSize n t - 1) hcs
  have hc : chunkSize n t * ((n + chunkSize n t - 1) / chunkSize n t)
      = ((n + chunkSize n t - 1) / chunkSize n t) * chunkSize n t := Nat.mul_comm _ _
  omega

lemma chunkCount_pos (n t : Nat) (hn : 0 < n) (ht : 0 < t) : 0 < chunkCount n t := by
  have hge := chunkCount_mul_ge n t hn ht
  rcases Nat.eq_zero_or_pos (chunkCount n t) with h | h
  · rw [h, Nat.zero_mul] at hge; omega
  · exact h

lemma chunkCount_pred_mul_lt (n t : Nat) (hn : 0 < n) (ht : 0 < t) :
    (chunkCount n t - 1) * chunkSize n t < n := by
  have hcs := chunkSize_pos n t hn ht
  have hpos := chunkCount_pos n t hn ht
  have hmul := Nat.div_mul_le_self (n + chunkSize n t - 1) (chunkSize n t)
  unfold chunkCount at hpos ⊢
  obtain ⟨q', hq⟩ : ∃ q', (n + chunkSize n t - 1) / chunkSize n t = q' + 1 :=
    ⟨(n + chunkSize n t - 1) / chunkSize n t - 1, by omega⟩
  rw [hq] at hmul ⊢
  simp only [Nat.add_sub_cancel]
  have hd : (q' + 1) * chunkSize n t = q' * chunkSize n t + chunkSize n t := by ring
  omega

lemma chunkStart_lt (n t i : Nat) (hn : 0 < n) (ht : 0 < t) (hi : i < chunkCount n t) :
    i * chunkSize n t < n := by
  have h1 := chunkCount_pred_mul_lt n t hn ht
  have h2 : i * chunkSize n t ≤ (chunkCount n t - 1) * chunkSize n t :=
    Nat.mul_le_mul_right _ (by omega)
  omega

lemma chunkOf_fst (n t i : Nat) : (chunkOf n t i).1 = i * chunkSize n t := rfl

/-- The inclusive end of chunk `i`, plus one, is `min ((i+1)*chunkSize) n`. -/
lemma chunkOf_snd_succ (n t i : Nat) (hn : 0 < n) (ht : 0 < t)
    (hi : i + 1 ≤ chunkCount n t) :
    (chunkOf n t i).2 + 1 = min ((i + 1) * chunkSize n t) n := by
  have hcs := chunkSize_pos n t hn ht
  have hA : 0 < (i + 1) * chunkSize n t := Nat.mul_pos (Nat.succ_pos i) hcs
  unfold chunkOf
  by_cases h : n ≤ (i + 1) * chunkSize n t - 1
  · simp only [if_pos h]
    omega
  · simp only [if_neg h]
    omega

lemma chunkPlan_length (n t : Nat) : (chunkPlan n t).length = chunkCount n t := by
  simp [chunkPlan]

lemma chunkPlan_get (n t i : Nat) (hi : i < (chunkPlan n t).length) :
    (chunkPlan n t)[i] = chunkOf n t i := by
  simp [chunkPlan]

lemma chunkPlan_sum_aux (n t : Nat) (hn : 0 < n) (ht : 0 < t) :
    ∀ j, j ≤ chunkCount n t →
      (((List.range j).map (chunkOf n t)).map (fun c => c.2 + 1 - c.1)).sum
        = min (j * chunkSize n t) n := by
  intro j
  induction j with
  | zero => intro _; simp
  | succ j ih =>
    intro hj
    rw [List.range_succ, List.map_append, List.map_append, List.sum_append,
      ih (by omega)]
    simp only [List.map_cons, List.map_nil, List.sum_cons, List.sum_nil]
    have hend := chunkOf_snd_succ n t j hn ht hj
    have hstart := chunkStart_lt n t j hn ht (by omega)
    have hcs := chunkSize_pos n t hn ht
    have hA : (j + 1) * chunkSize n t = j * chunkSize n t + chunkSize n t := by ring
    rw [chunkOf_fst]
    omega

/-- C2: the chunk sequence is nonempty, starts at offset 0, is contiguous,
ends at `totalSize - 1`, is non-overlapping, and its lengths sum to
`totalSize`, for every positive `totalSize` and `workerCount`. -/
theorem chunkPlan_partition (n t : Nat) (hn : 0 < n) (ht : 0 < t) :
    chunkPlan n t ≠ [] ∧
    (∀ h0 : 0 < (chunkPlan n t).length, (chunkPlan n t)[0].1 = 0) ∧
    (∀ i, (hi : i < (chunkPlan n t).length) → (hi1 : i + 1 < (chunkPlan n t).length) →
      (chunkPlan n t)[i + 1].1 = (chunkPlan n t)[i].2 + 1) ∧
    (∀ i, (hi : i < (chunkPlan n t).length) → (hlast : i + 1 = (chunkPlan n t).length) →
      (chunkPlan n t)[i].2 = n - 1) ∧
    (∀ i j, (hi : i < (chunkPlan n t).length) → (hj : j < (chunkPlan n t).length) →
      i < j → (chunkPlan n t)[i].2 < (chunkPlan n t)[j].1) ∧
    ((chunkPlan n t).map (fun c => c.2 + 1 - c.1)).sum = n := by
  have hk := chunkCount_pos n t hn ht
  have hlen := chunkPlan_length n t
  have hcs := chunkSize_pos n t hn ht
  refine ⟨?_, ?_, ?_, ?_, ?_, ?_⟩
  · intro h
    rw [h] at hlen
    simp at hlen
    omega
  · intro h0
    rw [chunkPlan_get n t 0 h0, chunkOf_fst]
    omega
  · intro i hi hi1
    rw [chunkPlan_get n t i hi, chunkPlan_get n t (i + 1) hi1, chunkOf_fst]
    have hend := chunkOf_snd_succ n t i hn ht (by omega)
    have hstart := chunkStart_lt n t (i + 1) hn ht (by omega)
    omega
  · intro i hi hlast
    rw [chunkPlan_get n t i hi]
    have hend := chunkOf_snd_succ n t i hn ht (by omega)
    have hge := chunkCount_mul_ge n t hn ht
    have hik : i + 1 = chunkCount n t := by omega
    rw [hik] at hend
    have hc : n ≤ chunkCount n t * chunkSize n t := hge
    omega
  · intro i j hi hj hij
    rw [chunkPlan_get n t i hi, chunkPlan_get n t j hj, chunkOf_fst]
    have hend := chunkOf_snd_succ n t i hn ht (by omega)
    have hmono : (i + 1) * chunkSize n t ≤ j * chunkSize n t :=
      Nat.mul_le_mul_right _ (by omega)
    have hA : 0 < (i + 1) * chunkSize n t := Nat.mul_pos (Nat.succ_pos i) hcs
    omega
  · have := chunkPlan_sum_aux n t hn ht (chunkCount n t) (le_refl _)
    have hge := chunkCount_mul_ge n t hn ht
    rw [min_eq_right hge] at this
    calc ((chunkPlan n t).map (fun c => c.2 + 1 - c.1)).sum
        = (((List.range (chunkCount n t)).map (chunkOf n t)).map
            (fun c => c.2 + 1 - c.1)).sum := by rw [chunkPlan]
      _ = n := this

/-- Witness for C2 at the spec's own concrete scenario `totalSize = 10`,
`workerCount = 4`. -/
theorem chunkPlan_partition_witness :
    0 < 10 ∧ 0 < 4 ∧ chunkPlan 10 4 ≠ [] :=
  ⟨by decide, by decide, (chunkPlan_partition 10 4 (by decide) (by decide)).1⟩

/-! ## Assembling the output file -/

/-- Writing the exact slice `[a, b)` of `L` at offset `a` into a file whose
first `a` bytes already agree with `L` extends the agreement to `b`. -/
lemma writeAt_take_drop (L Z : List Nat) (a b : Nat) (hab : a ≤ b) (hb : b ≤ L.length)
    (hZ : Z.length = L.length) :
    writeAt (L.take a ++ Z.drop a) a ((L.drop a).take (b - a))
      = L.take b ++ Z.drop b := by
  have ha : a ≤ L.length := le_trans hab hb
  have htakea : (L.take a).length = a := by
    simp only [List.length_take]
    omega
  have hdata : ((L.drop a).take (b - a)).length = b - a := by
    simp only [List.length_take, List.length_drop]
    omega
  unfold writeAt
  rw [hdata]
  have hoff : a + (b - a) = b := by omega
  rw [hoff]
  have h1 : (L.take a ++ Z.drop a).take a = L.take a := by
    rw [List.take_append_of_le_length (by omega), List.take_take]
    simp
  have h2 : (L.take a ++ Z.drop a).drop b = Z.drop b := by
    have hb' : b = (L.take a).length + (b - a) := by omega
    rw [hb', List.drop_append, List.drop_drop]
    congr 1
    omega
  rw [h1, h2]
  have h3 : L.take b = L.take a ++ (L.drop a).take (b - a) := by
    conv_lhs => rw [show b = a + (b - a) by omega]
    rw [List.take_add]
  rw [h3, List.append_assoc]

/-- After the fetchers of chunks `0, …, j-1` have written (and none failed),
the file agrees with the content up to `min (j * chunkSize) fileSize` and
is untouched beyond. -/
lemma assemble_take (L : List Nat) (t : Nat) (hn : 0 < L.length) (ht : 0 < t) :
    ∀ j, j ≤ chunkCount L.length t →
      (List.range j).foldl
          (fun file i =>
            writeAt file (chunkOf L.length t i).1
              (fetchData L (chunkOf L.length t i) none))
          (List.replicate L.length 0)
        = L.take (min (j * chunkSize L.length t) L.length)
          ++ (List.replicate L.length 0).drop (min (j * chunkSize L.length t) L.length) := by
  have hcs := chunkSize_pos L.length t hn ht
  have hZ : (List.replicate L.length (0 : Nat)).length = L.length := by simp
  intro j
  induction j with
  | zero => intro _; simp
  | succ j ih =>
    intro hj
    rw [List.range_succ, List.foldl_append, ih (by omega)]
    simp only [List.foldl_cons, List.foldl_nil]
    have hstart := chunkStart_lt L.length t j hn ht (by omega)
    have hend := chunkOf_snd_succ L.length t j hn ht hj
    have hAB : (j + 1) * chunkSize L.length t
        = j * chunkSize L.length t + chunkSize L.length t := by ring
    have hminj : min (j * chunkSize L.length t) L.length = j * chunkSize L.length t :=
      min_eq_left (le_of_lt hstart)
    rw [hminj]
    have hdata : fetchData L (chunkOf L.length t j) none
        = (L.drop (j * chunkSize L.length t)).take
            (min ((j + 1) * chunkSize L.length t) L.length - j * chunkSize L.length t) := by
      show serveRange L (chunkOf L.length t j).1 (chunkOf L.length t j).2 = _
      unfold serveRange
      rw [chunkOf_fst]
      congr 1
      omega
    rw [hdata, chunkOf_fst]
    have hb1 : min ((j + 1) * chunkSize L.length t) L.length ≤ L.length :=
      Nat.min_le_right _ _
    have hab1 : j * chunkSize L.length t
        ≤ min ((j + 1) * chunkSize L.length t) L.length :=
      le_min (by omega) (le_of_lt hstart)
    exact writeAt_take_drop L (List.replicate L.length 0)
      (j * chunkSize L.length t) (min ((j + 1) * chunkSize L.length t) L.length)
      hab1 hb1 hZ

/-- With no fetcher failing, the run reassembles the content exactly. -/
lemma assembleWith_eq (L : List Nat) (t : Nat) (hn : 0 < L.length) (ht : 0 < t) :
    assembleWith L.length L t (fun _ => none) = L := by
  unfold assembleWith
  rw [assemble_take L t hn ht (chunkCount L.length t) (le_refl _)]
  have hge := chunkCount_mul_ge L.length t hn ht
  rw [min_eq_right hge, List.take_length]
  have hnil : (List.replicate L.length (0 : Nat)).drop L.length = [] :=
    List.drop_eq_nil_of_le (by simp)
  rw [hnil, List.append_nil]

/-- Bridge from the Go `int64` arithmetic of `runDownload` to the `Nat`
partition: with a positive probed size and worker count, the run reaches
the fetch stage and assembles the planned chunks. -/
lemma runDownloadWith_completed (resp : Option HeadResponse) (content : List Nat)
    (threads : Nat) (fileSize : Nat) (chunkFail : Nat → Option Nat)
    (hok : getFileSize resp = .ok (fileSize : Int))
    (hn : 0 < fileSize) (ht : 0 < threads) :
    runDownloadWith resp content threads chunkFail
      = .completed (assembleWith fileSize content threads chunkFail) := by
  unfold runDownloadWith
  rw [hok]
  dsimp only
  have hcast : ((fileSize : Int) + (threads : Int) - 1)
      = ((fileSize + threads - 1 : Nat) : Int) := by omega
  have htdiv : (((fileSize + threads - 1 : Nat) : Int)).tdiv ((threads : Nat) : Int)
      = ((chunkSize fileSize threads : Nat) : Int) := rfl
  have hcs := chunkSize_pos fileSize threads hn ht
  rw [hcast, htdiv]
  have hne : ((chunkSize fileSize threads : Nat) : Int) ≠ 0 := by
    simp only [ne_eq, Int.natCast_eq_zero]
    omega
  rw [if_neg hne, if_neg (by simp)]
  simp

/-- C1: end-to-end fidelity — a server with range support serving a known
byte sequence of positive length, any worker count from 1 to the content
length, ranged responses returning exactly the requested bytes
(`serveRange`) and no fetcher failing: the completed output file is
byte-for-byte the source sequence. -/
theorem endToEnd_fidelity (resp : Option HeadResponse) (content : List Nat) (threads : Nat)
    (hresp : getFileSize resp = .ok (content.length : Int))
    (hlen : 0 < content.length) (ht1 : 1 ≤ threads) (ht2 : threads ≤ content.length) :
    runDownload resp content threads = .completed content := by
  unfold runDownload
  rw [runDownloadWith_completed resp content threads content.length (fun _ => none)
    hresp hlen ht1]
  rw [assembleWith_eq content threads hlen ht1]

/-- Witness for C1: a three-byte file downloaded with two workers. -/
theorem endToEnd_fidelity_witness :
    runDownload (some ⟨"bytes", "3"⟩) [3, 1, 4] 2 = .completed [3, 1, 4] :=
  endToEnd_fidelity (some ⟨"bytes", "3"⟩) [3, 1, 4] 2 rfl (by decide) (by decide) (by decide)

/-! ## The probe contract and the orchestrator's abort/completion behaviour -/

/-- C3: `getFileSize` errors exactly on transport failure, a capability
header other than the literal `bytes`, or an absent or unparsable
`Content-Length`; on success it returns the parsed length; and whenever
it errors, the run aborts as `probeFailed` — before `os.Create`, so no
output file is created. -/
theorem getFileSize_contract :
    isErr (getFileSize none) = true ∧
    (∀ r : HeadResponse, isErr (getFileSize (some r)) = true ↔
      (r.acceptRanges ≠ "bytes" ∨ r.contentLength = "" ∨ parseInt64 r.contentLength = none)) ∧
    (∀ r n, getFileSize (some r) = .ok n → parseInt64 r.contentLength = some n) ∧
    (∀ resp content threads chunkFail, isErr (getFileSize resp) = true →
      runDownloadWith resp content threads chunkFail = .probeFailed) := by
  refine ⟨rfl, ?_, ?_, ?_⟩
  · intro r
    by_cases h1 : r.acceptRanges = "bytes"
    · by_cases h2 : r.contentLength = ""
      · simp [getFileSize, isErr, h1, h2]
      · cases hp : parseInt64 r.contentLength with
        | none => simp [getFileSize, isErr, h1, h2, hp]
        | some n => simp [getFileSize, isErr, h1, h2, hp]
    · simp [getFileSize, isErr, h1]
  · intro r n h
    by_cases h1 : r.acceptRanges = "bytes"
    · by_cases h2 : r.contentLength = ""
      · simp [getFileSize, h1, h2] at h
      · cases hp : parseInt64 r.contentLength with
        | none => simp [getFileSize, h1, h2, hp] at h
        | some m =>
          simp [getFileSize, h1, h2, hp] at h
          rw [h]
    · simp [getFileSize, h1] at h
  · intro resp content threads chunkFail he
    cases hg : getFileSize resp with
    | error e => simp [runDownloadWith, hg]
    | ok n => rw [hg] at he; simp [isErr] at he

/-- Witness for C3: a server without range support is rejected and the run
aborts before creating a file. -/
theorem getFileSize_contract_witness :
    isErr (getFileSize (some ⟨"none", "5"⟩)) = true ∧
    runDownloadWith (some ⟨"none", "5"⟩) [] 1 (fun _ => none) = .probeFailed :=
  ⟨rfl, getFileSize_contract.2.2.2 (some ⟨"none", "5"⟩) [] 1 (fun _ => none) rfl⟩

/-- C4: once the run passes the probe, planning, creation and truncation
stages, it completes for every pattern of per-chunk failures — the
outcome is `completed` no matter which fetchers abort or where, and no
per-chunk error is propagated to the caller. -/
theorem run_completes_despite_failures (resp : Option HeadResponse) (content : List Nat)
    (threads fileSize : Nat)
    (hok : getFileSize resp = .ok (fileSize : Int))
    (hn : 0 < fileSize) (ht : 0 < threads) :
    ∀ chunkFail : Nat → Option Nat,
      runDownloadWith resp content threads chunkFail
        = .completed (assembleWith fileSize content threads chunkFail) :=
  fun chunkFail => runDownloadWith_completed resp content threads fileSize chunkFail hok hn ht

/-- Witness for C4: the first fetcher dies after one byte, the run still
reports completion. -/
theorem run_completes_despite_failures_witness :
    runDownloadWith (some ⟨"bytes", "3"⟩) [3, 1, 4] 2 (fun i => if i = 0 then some 1 else none)
      = .completed (assembleWith 3 [3, 1, 4] 2 (fun i => if i = 0 then some 1 else none)) :=
  run_completes_despite_failures (some ⟨"bytes", "3"⟩) [3, 1, 4] 2 3 rfl (by decide) (by decide)
    (fun i => if i = 0 then some 1 else none)

/-- C10: a probed `Content-Length` of `0` is accepted by `getFileSize`, then
planning computes `chunkSize = 0` and the chunk-count expression
`(fileSize + chunkSize - 1) / chunkSize` divides by zero, so the run
panics (before `os.Create`: no output file, empty or otherwise, is
produced). -/
theorem zero_size_panics (threads : Nat) (ht : 0 < threads) (content : List Nat) :
    getFileSize (some ⟨"bytes", "0"⟩) = .ok 0 ∧
    runDownloadWith (some ⟨"bytes", "0"⟩) content threads (fun _ => none) = .panicked := by
  refine ⟨rfl, ?_⟩
  unfold runDownloadWith
  rw [show getFileSize (some ⟨"bytes", "0"⟩) = .ok 0 from rfl]
  dsimp only
  have hcast : ((0 : Int) + (threads : Int) - 1) = ((threads - 1 : Nat) : Int) := by omega
  rw [hcast]
  have htdiv : (((threads - 1 : Nat) : Int)).tdiv ((threads : Nat) : Int)
      = (((threads - 1) / threads : Nat) : Int) := rfl
  rw [htdiv, Nat.div_eq_of_lt (by omega)]
  simp

/-- Witness for C10 at four workers. -/
theorem zero_size_panics_witness :
    getFileSize (some ⟨"bytes", "0"⟩) = .ok 0 ∧
    runDownloadWith (some ⟨"bytes", "0"⟩) [] 4 (fun _ => none) = .panicked :=
  zero_size_panics 4 (by decide) []

/-! ## The rate-limited reader -/

/-- C5 (counterexample): a read with a 1024-byte buffer whose underlying
body read returns only 512 bytes — a short read the `io.Reader`
contract allows — consumes 1024 tokens for 512 obtained bytes, so
`tokens consumed ≤ bytes obtained` fails on the code: `Wait(len(p))`
runs before the read, on the requested size, not on the size read. -/
theorem read_tokens_exceed_bytes :
    ¬ tokensConsumed (rateLimitedRead 1024 (fun _ => 512))
        ≤ bytesObtained (rateLimitedRead 1024 (fun _ => 512)) := by decide

/-- C5 (amended): a `Read` on a buffer of length `len(p)` consumes exactly
`min(len(p), 16 KiB)` tokens; that is at least — not at most — the
number of bytes the read actually obtains, and never exceeds the
requested buffer length. -/
theorem read_token_accounting (bufLen : Nat) (body : Nat → Nat)
    (hbody : ∀ k, body k ≤ k) :
    tokensConsumed (rateLimitedRead bufLen body) = readQuantum bufLen ∧
    bytesObtained (rateLimitedRead bufLen body)
      ≤ tokensConsumed (rateLimitedRead bufLen body) ∧
    tokensConsumed (rateLimitedRead bufLen body) ≤ bufLen := by
  refine ⟨by simp [tokensConsumed, rateLimitedRead], ?_, ?_⟩
  · have h := hbody (readQuantum bufLen)
    simp only [tokensConsumed, bytesObtained, rateLimitedRead, List.map_cons, List.map_nil,
      List.sum_cons, List.sum_nil]
    omega
  · simp only [tokensConsumed, rateLimitedRead, List.map_cons, List.map_nil,
      List.sum_cons, List.sum_nil, readQuantum]
    split <;> omega

/-- Witness for C5's amended claim: an underlying reader that fills its
buffer. -/
theorem read_token_accounting_witness :
    tokensConsumed (rateLimitedRead 100 (fun k => k)) = readQuantum 100 :=
  (read_token_accounting 100 (fun k => k) (fun k => le_refl k)).1

/-- C6: every read-and-throttle quantum is at most 16 KiB, and the one
`Wait` of a read carries exactly the quantum's size and precedes the
body read (the trace is `[wait q, readBody (body q)]`). -/
theorem read_quantization (bufLen : Nat) (body : Nat → Nat) :
    (∀ n, IOEvent.wait n ∈ rateLimitedRead bufLen body → n ≤ 16 * 1024) ∧
    (∃ q, q ≤ 16 * 1024 ∧
      rateLimitedRead bufLen body = [.wait q, .readBody (body q)]) := by
  have hq : readQuantum bufLen ≤ 16 * 1024 := by
    unfold readQuantum
    split <;> omega
  refine ⟨?_, readQuantum bufLen, hq, rfl⟩
  intro n hn
  simp only [rateLimitedRead, List.mem_cons, List.mem_singleton] at hn
  rcases hn with h | h | h
  · cases h
    exact hq
  · cases h
  · cases h

/-- Witness for C6: a 20000-byte buffer is throttled in a 16 KiB quantum. -/
theorem read_quantization_witness :
    IOEvent.wait (readQuantum 20000) ∈ rateLimitedRead 20000 (fun k => k) ∧
    readQuantum 20000 ≤ 16 * 1024 :=
  ⟨by decide, (read_quantization 20000 (fun k => k)).1 (readQuantum 20000) (by decide)⟩

/-! ## The section writer -/

lemma writeEvents_length (s : Nat) (ns : List Nat) :
    (writeEvents s ns).length = ns.length := by
  induction ns generalizing s with
  | nil => rfl
  | cons n ns ih => simp [writeEvents, ih]

lemma writeEvents_get (s : Nat) (ns : List Nat) (i : Nat) (hi : i < ns.length)
    (hi2 : i < (writeEvents s ns).length) :
    (writeEvents s ns)[i] = (s + (ns.take i).sum, ns[i]) := by
  induction ns generalizing s i with
  | nil => exact absurd hi (by simp)
  | cons n ns ih =>
    cases i with
    | zero => simp [writeEvents]
    | succ i =>
      have hi' : i < ns.length := by simpa using hi
      have hi2' : i < (writeEvents (s + n) ns).length := by
        rw [writeEvents_length]
        exact hi'
      simp only [writeEvents, List.getElem_cons_succ]
      rw [ih (s + n) i hi' hi2']
      simp [List.sum_cons, Nat.add_assoc]

lemma sum_take_le_sum_take (ns : List Nat) (a b : Nat) (hab : a ≤ b) :
    (ns.take a).sum ≤ (ns.take b).sum := by
  calc (ns.take a).sum
      ≤ (ns.take a).sum + ((ns.drop a).take (b - a)).sum := Nat.le_add_right _ _
    _ = (ns.take b).sum := by
        rw [← List.sum_append, ← List.take_add, show a + (b - a) = b by omega]

lemma sum_take_le (ns : List Nat) (m : Nat) : (ns.take m).sum ≤ ns.sum := by
  conv_rhs => rw [← List.take_append_drop m ns]
  rw [List.sum_append]
  exact Nat.le_add_right _ _

/-- C7: a fetcher assigned `[s, e]` and fed nonempty quanta totalling at
most its range begins writing at `s`, each write starts where the
previous ended (strictly increasing offsets), no two writes overlap,
and the write cursor never passes `e + 1`. -/
theorem fetcher_write_discipline (s e : Nat) (ns : List Nat)
    (hpos : ∀ n ∈ ns, 0 < n) (hsum : s + ns.sum ≤ e + 1) :
    (∀ h0 : 0 < (writeEvents s ns).length, (writeEvents s ns)[0].1 = s) ∧
    (∀ i, (hi : i < (writeEvents s ns).length) →
      (hi1 : i + 1 < (writeEvents s ns).length) →
      (writeEvents s ns)[i + 1].1
        = (writeEvents s ns)[i].1 + (writeEvents s ns)[i].2 ∧
      (writeEvents s ns)[i].1 < (writeEvents s ns)[i + 1].1) ∧
    (∀ i j, (hi : i < (writeEvents s ns).length) →
      (hj : j < (writeEvents s ns).length) → i < j →
      (writeEvents s ns)[i].1 + (writeEvents s ns)[i].2 ≤ (writeEvents s ns)[j].1) ∧
    (∀ i, (hi : i < (writeEvents s ns).length) →
      (writeEvents s ns)[i].1 + (writeEvents s ns)[i].2 ≤ e + 1) := by
  have hlen := writeEvents_length s ns
  refine ⟨?_, ?_, ?_, ?_⟩
  · intro h0
    rw [writeEvents_get s ns 0 (by omega) h0]
    simp
  · intro i hi hi1
    rw [writeEvents_get s ns i (by omega) hi, writeEvents_get s ns (i + 1) (by omega) hi1]
    have hsucc : (ns.take (i + 1)).sum = (ns.take i).sum + ns[i] :=
      List.sum_take_succ ns i (by omega)
    have hmem : ns[i] ∈ ns := List.getElem_mem (by omega)
    have hp := hpos _ hmem
    constructor
    · dsimp only
      omega
    · dsimp only
      omega
  · intro i j hi hj hij
    rw [writeEvents_get s ns i (by omega) hi, writeEvents_get s ns j (by omega) hj]
    have hsucc : (ns.take (i + 1)).sum = (ns.take i).sum + ns[i] :=
      List.sum_take_succ ns i (by omega)
    have hmono := sum_take_le_sum_take ns (i + 1) j (by omega)
    dsimp only
    omega
  · intro i hi
    rw [writeEvents_get s ns i (by omega) hi]
    have hsucc : (ns.take (i + 1)).sum = (ns.take i).sum + ns[i] :=
      List.sum_take_succ ns i (by omega)
    have hle := sum_take_le ns (i + 1)
    dsimp only
    omega

/-- Witness for C7: two quanta of sizes 2 and 1 for the range `[5, 7]`. -/
theorem fetcher_write_discipline_witness :
    (writeEvents 5 [2, 1])[0].1 = 5 :=
  (fetcher_write_discipline 5 7 [2, 1] (by decide) (by decide)).1 (by decide)

/-! ## The rate limiter's throughput bound -/

lemma refill_bytesPerSec (rl : RateLimiter) (now : Nat) :
    (rl.refill now).bytesPerSec = rl.bytesPerSec := by
  unfold RateLimiter.refill
  dsimp only
  split <;> rfl

lemma refill_lastRefill_ge (rl : RateLimiter) (now : Nat) :
    rl.lastRefill ≤ (rl.refill now).lastRefill := by
  unfold RateLimiter.refill
  dsimp only
  split
  case isTrue h =>
    rcases Nat.eq_zero_or_pos (now - rl.lastRefill) with h0 | h0
    · rw [h0, Nat.zero_mul] at h
      omega
    · simp only
      omega
  case isFalse h => exact le_refl _

lemma refill_lastRefill_ub (rl : RateLimiter) (now M : Nat)
    (h1 : rl.lastRefill ≤ M) (h2 : now ≤ M) :
    (rl.refill now).lastRefill ≤ M := by
  unfold RateLimiter.refill
  dsimp only
  split
  · exact h2
  · exact h1

lemma refill_tokens_le (rl : RateLimiter) (now : Nat) :
    (rl.refill now).tokens
      ≤ rl.tokens + ((rl.refill now).lastRefill - rl.lastRefill) * rl.bytesPerSec := by
  unfold RateLimiter.refill
  dsimp only
  split
  case isTrue h =>
    simp only
    exact le_trans (Nat.min_le_left _ _) (le_refl _)
  case isFalse h => simp

lemma waitStep_bytesPerSec (rl : RateLimiter) (t n : Nat) :
    (rl.waitStep t n).1.bytesPerSec = rl.bytesPerSec := by
  unfold RateLimiter.waitStep
  dsimp only
  split
  · exact refill_bytesPerSec rl t
  · exact refill_bytesPerSec rl t

lemma waitStep_lastRefill (rl : RateLimiter) (t n : Nat) :
    (rl.waitStep t n).1.lastRefill = (rl.refill t).lastRefill := by
  unfold RateLimiter.waitStep
  dsimp only
  split <;> rfl

lemma waitStep_consumed (rl : RateLimiter) (t n : Nat) :
    (rl.waitStep t n).2 + (rl.waitStep t n).1.tokens = (rl.refill t).tokens := by
  unfold RateLimiter.waitStep
  dsimp only
  split
  case isTrue h =>
    simp only
    omega
  case isFalse h => simp

/-- Token conservation for the APS2 limiter: what a serialized trace
consumes, plus the tokens left, is bounded by the starting tokens plus
the elapsed refill budget; and the refill stamp never moves backwards. -/
lemma runTrace_invariant (tr : List (Nat × Nat)) : ∀ rl : RateLimiter,
    (runTrace rl tr).2 + (runTrace rl tr).1.tokens
      ≤ rl.tokens + ((runTrace rl tr).1.lastRefill - rl.lastRefill) * rl.bytesPerSec ∧
    rl.lastRefill ≤ (runTrace rl tr).1.lastRefill ∧
    (runTrace rl tr).1.bytesPerSec = rl.bytesPerSec := by
  induction tr with
  | nil =>
    intro rl
    simp [runTrace]
  | cons p rest ih =>
    intro rl
    obtain ⟨t, n⟩ := p
    obtain ⟨ih1, ih2, ih3⟩ := ih (rl.waitStep t n).1
    have hB := waitStep_bytesPerSec rl t n
    have hL := waitStep_lastRefill rl t n
    have hC := waitStep_consumed rl t n
    have hRT := refill_tokens_le rl t
    have hRG := refill_lastRefill_ge rl t
    rw [hB] at ih1 ih3
    rw [hL] at ih1 ih2
    simp only [runTrace]
    refine ⟨?_, ?_, ih3⟩
    · have hmul : ((rl.refill t).lastRefill - rl.lastRefill) * rl.bytesPerSec
          + ((runTrace (rl.waitStep t n).1 rest).1.lastRefill - (rl.refill t).lastRefill)
            * rl.bytesPerSec
          = ((runTrace (rl.waitStep t n).1 rest).1.lastRefill - rl.lastRefill)
            * rl.bytesPerSec := by
        rw [← Nat.add_mul]
        congr 1
        omega
      omega
    · omega

/-- The refill stamp stays below any bound that dominates the starting
stamp and every trace timestamp. -/
lemma runTrace_lastRefill_ub (tr : List (Nat × Nat)) : ∀ (rl : RateLimiter) (M : Nat),
    (∀ p ∈ tr, p.1 ≤ M) → rl.lastRefill ≤ M →
    (runTrace rl tr).1.lastRefill ≤ M := by
  induction tr with
  | nil =>
    intro rl M _ h
    exact h
  | cons p rest ih =>
    intro rl M htr h
    obtain ⟨t, n⟩ := p
    simp only [runTrace]
    apply ih
    · intro q hq
      exact htr q (List.mem_cons_of_mem _ hq)
    · rw [waitStep_lastRefill]
      exact refill_lastRefill_ub rl t M h (htr (t, n) (List.mem_cons_self _ _))

/-- Token conservation for the APS1 channel limiter: tokens released plus
tokens still queued are bounded by the starting queue plus one
`bytesPerSec` injection per tick. -/
lemma runChanTrace_invariant (ops : List QueueOp) : ∀ s : ChanLimiter,
    (runChanTrace s ops).2 + (runChanTrace s ops).1.queue
      ≤ s.queue + countTicks ops * s.bytesPerSec := by
  induction ops with
  | nil =>
    intro s
    simp [runChanTrace]
  | cons op rest ih =>
    intro s
    cases op with
    | tick =>
      have hih := ih { s with queue := min (s.queue + s.bytesPerSec) s.bytesPerSec }
      simp only [runChanTrace, chanStep, countTicks] at hih ⊢
      have hmin : min (s.queue + s.bytesPerSec) s.bytesPerSec ≤ s.queue + s.bytesPerSec :=
        Nat.min_le_left _ _
      have hAB : (countTicks rest + 1) * s.bytesPerSec
          = countTicks rest * s.bytesPerSec + s.bytesPerSec := by ring
      omega
    | wait n =>
      have hih := ih { s with queue := s.queue - min n s.queue }
      simp only [runChanTrace, chanStep, countTicks] at hih ⊢
      have hmin : min n s.queue ≤ s.queue := Nat.min_le_right _ _
      omega

/-- C8: over a window `[t0, t0 + T]`, a rate limiter whose bucket is within
capacity at the window's start releases at most `bytesPerSec * T` tokens
plus one bucket capacity of slack — for the APS2 lazy-refill bucket
over any serialized trace of `Wait` iterations timestamped inside the
window, and for the APS1 ticker-fed channel over any serialized event
list with at most `T` ticks (the 1-second ticker fires at most `T`
times in `T` seconds). -/
theorem rateLimiter_window_bound :
    (∀ (rl : RateLimiter) (tr : List (Nat × Nat)) (t0 T : Nat),
      rl.tokens ≤ rl.bytesPerSec → t0 ≤ rl.lastRefill → rl.lastRefill ≤ t0 + T →
      (∀ p ∈ tr, p.1 ≤ t0 + T) →
      (runTrace rl tr).2 ≤ rl.bytesPerSec * T + rl.bytesPerSec) ∧
    (∀ (s : ChanLimiter) (ops : List QueueOp) (T : Nat),
      s.queue ≤ s.bytesPerSec → countTicks ops ≤ T →
      (runChanTrace s ops).2 ≤ s.bytesPerSec * T + s.bytesPerSec) := by
  constructor
  · intro rl tr t0 T htok h0 h1 htr
    obtain ⟨hinv, hmono, _⟩ := runTrace_invariant tr rl
    have hub := runTrace_lastRefill_ub tr rl (t0 + T) htr h1
    have hdiff : (runTrace rl tr).1.lastRefill - rl.lastRefill ≤ T := by omega
    have hmul : ((runTrace rl tr).1.lastRefill - rl.lastRefill) * rl.bytesPerSec
        ≤ T * rl.bytesPerSec := Nat.mul_le_mul_right _ hdiff
    have hcomm : T * rl.bytesPerSec = rl.bytesPerSec * T := Nat.mul_comm _ _
    omega
  · intro s ops T hq ht
    have hinv := runChanTrace_invariant ops s
    have hmul : countTicks ops * s.bytesPerSec ≤ T * s.bytesPerSec :=
      Nat.mul_le_mul_right _ ht
    have hcomm : T * s.bytesPerSec = s.bytesPerSec * T := Nat.mul_comm _ _
    omega

/-- Witness for C8: a capacity-5 limiter, two waits inside a 2-second
window. -/
theorem rateLimiter_window_bound_witness :
    (runTrace ⟨5, 5, 0⟩ [(1, 3), (2, 4)]).2 ≤ 5 * 2 + 5 :=
  rateLimiter_window_bound.1 ⟨5, 5, 0⟩ [(1, 3), (2, 4)] 0 2
    (by decide) (by decide) (by decide) (by decide)

/-! ## Output file naming -/

/-- On a slash-free character list (scanned in reverse), `pathExtAux` finds
the suffix from the last dot, or nothing. -/
lemma pathExtAux_spec (r : List Char) (hr : '/' ∉ r) : ∀ acc : List Char,
    pathExtAux acc r =
      if (r.dropWhile fun c => c ≠ '.') = [] then ""
      else String.mk ('.' :: (r.takeWhile fun c => c ≠ '.').reverse ++ acc) := by
  induction r with
  | nil =>
    intro acc
    simp [pathExtAux]
  | cons c rest ih =>
    intro acc
    have hc : c ≠ '/' := fun h => hr (h ▸ List.mem_cons_self _ _)
    have hr' : '/' ∉ rest := fun h => hr (List.mem_cons_of_mem _ h)
    by_cases hdot : c = '.'
    · subst hdot
      simp [pathExtAux]
    · rw [show pathExtAux acc (c :: rest) = pathExtAux (c :: acc) rest by
        simp [pathExtAux, hc, hdot]]
      rw [ih hr' (c :: acc)]
      rw [List.dropWhile_cons_of_pos (by simp [hdot]),
        List.takeWhile_cons_of_pos (by simp [hdot])]
      by_cases hd : (rest.dropWhile fun c => c ≠ '.') = []
      · rw [if_pos hd, if_pos hd]
      · rw [if_neg hd, if_neg hd]
        simp

/-- The first element surviving `dropWhile` falsifies the predicate. -/
lemma dropWhile_cons_prop (p : Char → Bool) (l : List Char) (b : Char) (bs : List Char)
    (h : l.dropWhile p = b :: bs) : p b = false := by
  induction l with
  | nil => simp at h
  | cons a as ih =>
    by_cases ha : p a
    · rw [List.dropWhile_cons_of_pos ha] at h
      exact ih h
    · rw [List.dropWhile_cons_of_neg ha] at h
      injection h with h1 _
      subst h1
      simpa using ha

/-- On a slash-free name, trimming the Go extension is exactly dropping
everything from the last dot. -/
lemma trimSuffix_pathExt (s : String) (hs : '/' ∉ s.data) :
    trimSuffix s (pathExt s) = String.mk (beforeLastDot s.data) := by
  have hr : '/' ∉ s.data.reverse := by simpa using hs
  rw [pathExt, pathExtAux_spec s.data.reverse hr []]
  by_cases hd : (s.data.reverse.dropWhile fun c => c ≠ '.') = []
  · rw [if_pos hd]
    have hbefore : beforeLastDot s.data = s.data := by
      unfold beforeLastDot
      rw [hd]
    rw [hbefore]
    unfold trimSuffix
    rw [if_pos (by simp)]
    simp [String.ext_iff]
  · rw [if_neg hd]
    obtain ⟨rest', hrest⟩ : ∃ rest',
        (s.data.reverse.dropWhile fun c => c ≠ '.') = '.' :: rest' := by
      cases hdw : (s.data.reverse.dropWhile fun c => c ≠ '.') with
      | nil => exact absurd hdw hd
      | cons b bs =>
        have hb := dropWhile_cons_prop _ _ _ _ hdw
        have hb' : b = '.' := by simpa using hb
        exact ⟨bs, by rw [hb']⟩
    have hsplit : s.data.reverse
        = (s.data.reverse.takeWhile fun c => c ≠ '.') ++ '.' :: rest' := by
      conv_lhs => rw [← List.takeWhile_append_dropWhile (fun c => decide (c ≠ '.')) s.data.reverse]
      rw [hrest]
    have hdata : s.data
        = rest'.reverse ++ '.' :: (s.data.reverse.takeWhile fun c => c ≠ '.').reverse := by
      have := congrArg List.reverse hsplit
      simpa [List.reverse_append] using this
    have hbefore : beforeLastDot s.data = rest'.reverse := by
      unfold beforeLastDot
      rw [hrest]
    rw [hbefore]
    unfold trimSuffix
    set tw := (s.data.reverse.takeWhile fun c => c ≠ '.').reverse with htw
    have hextdata : (String.mk ('.' :: tw ++ [])).data = '.' :: tw := by simp
    rw [hextdata]
    have hsuffix : ('.' :: tw).isSuffixOf s.data = true :=
      List.isSuffixOf_iff_suffix.2 ⟨rest'.reverse, hdata.symm⟩
    rw [if_pos hsuffix]
    have hlen : s.data.length - ('.' :: tw).length = rest'.reverse.length := by
      rw [hdata]
      simp
    rw [hlen, hdata, List.take_left]

/-- Go `path.Base` returns `"/"` or a slash-free name. -/
lemma pathBase_no_slash (s : String) :
    pathBase s = "/" ∨ '/' ∉ (pathBase s).data := by
  unfold pathBase
  by_cases h0 : s = ""
  · rw [if_pos h0]
    right
    decide
  · rw [if_neg h0]
    dsimp only
    by_cases hb : ((s.data.reverse.dropWhile fun c => c = '/').takeWhile
        fun c => c ≠ '/').reverse = []
    · rw [if_pos hb]
      left
      rfl
    · rw [if_neg hb]
      right
      intro hmem
      have hmem' : '/' ∈ ((s.data.reverse.dropWhile fun c => c = '/').takeWhile
          fun c => c ≠ '/') := by
        simpa using hmem
      have := List.mem_takeWhile_imp hmem'
      simp at this

/-- C9 (amended, APS2 side): `getFileName` realizes the spec's naming rule —
the parsed path's basename, with everything from the basename's last dot
replaced by `"." ++ format` whenever the `format` query parameter is
present, and `"output.dat"` when the URL does not parse. -/
theorem getFileName_follows_spec (u : ParsedURL) :
    getFileName (some u) = specFileName u ∧ getFileName none = "output.dat" := by
  refine ⟨?_, rfl⟩
  unfold getFileName specFileName
  dsimp only
  by_cases hq : queryGet u.query "format" = ""
  · simp [hq]
  · rw [if_pos hq, if_neg hq]
    have hbase : trimSuffix (pathBase u.path) (pathExt (pathBase u.path))
        = String.mk (beforeLastDot (pathBase u.path).data) := by
      rcases pathBase_no_slash u.path with h | h
      · rw [h]
        decide
      · exact trimSuffix_pathExt _ h
    rw [hbase]

/-- C9 (counterexample): APS1 names its output `path.Base(rawURL)`; for a
URL with a `format` query parameter this keeps the query text and does
not replace the extension, so the claimed naming rule fails on APS1. -/
theorem aps1_name_differs :
    ¬ aps1FileName demoURL.raw = specFileName demoURL := by decide

end Downloader
